import Mathlib

/-!
Shallow embedding of the skeletal-animation retargeting and locomotion core of
`src/components/SmartCharacter.tsx` (the dual-format variant, plus the pieces of
the legacy single-format variant that the spec's claims cite), together with
proofs settling the spec's claims.

Strings are embedded as lists of character codepoints (`List Nat`), so that all
string operations of the source (lowercasing, regex replacement, splitting,
filtering of non-alphanumerics, suffix/containment tests) are plain computable
list functions. JavaScript numbers are embedded as exact rationals.
-/

namespace RedCarpet

/-- A bone name / string, as the list of its character codepoints. -/
abbrev BName := List Nat

/-- Codepoints of a Lean string literal, for writing concrete test inputs. -/
def strToCodes (s : String) : BName := s.data.map Char.toNat

/-- ASCII lowercasing of one codepoint, the embedding of
JavaScript `toLowerCase` on the ASCII range used by bone names. -/
def lowerCode (n : Nat) : Nat := if 65 ≤ n ∧ n ≤ 90 then n + 32 else n

/-- Lowercase every codepoint (`name.toLowerCase()` in `normalizeBoneName`). -/
def lowerList (l : BName) : BName := l.map lowerCode

/-- The separator class `[:|/.]` of `normalizeBoneName`'s split:
`:` = 58, `|` = 124, `/` = 47, `.` = 46. -/
def isSepCode (n : Nat) : Bool := n == 58 || n == 124 || n == 47 || n == 46

/-- `small.isPrefixL big`: is the first list a prefix of the second. -/
def isPrefixL : BName → BName → Bool
  | [], _ => true
  | _ :: _, [] => false
  | a :: as, b :: bs => a == b && isPrefixL as bs

/-- The codepoints of the vendor prefix literal `mixamorig`. -/
def mixPrefix : BName := [109, 105, 120, 97, 109, 111, 114, 105, 103]

/-- Consume one optional `_` (95), the `_?` part of the vendor-prefix regex. -/
def dropUnd : BName → BName
  | [] => []
  | d :: rest => if d = 95 then rest else d :: rest

/-- The greedy optional-separator part `:?_?` of the vendor-prefix regex:
consume an optional `:` (58) and then an optional `_` (95). -/
def dropMixSep : BName → BName
  | [] => []
  | c :: rest => if c = 58 then dropUnd rest else dropUnd (c :: rest)

/-- The left-to-right scan of `replace(/mixamorig:?_?/g, '')`: at each
position, if the literal `mixamorig` starts here, consume it together with
its greedy optional separators and continue after the match, else keep the
character; `fuel` only bounds the recursion and is never exhausted when it
starts at the list's length. -/
def stripMixGo : Nat → BName → BName
  | 0, l => l
  | _ + 1, [] => []
  | fuel + 1, c :: rest =>
    if isPrefixL mixPrefix (c :: rest) then
      stripMixGo fuel (dropMixSep (rest.drop 8))
    else
      c :: stripMixGo fuel rest

/-- Global removal of the regex `mixamorig:?_?` (after lowercasing), the
embedding of `temp.replace(/mixamorig:?_?/g, '')` in `normalizeBoneName`. -/
def stripMix (l : BName) : BName := stripMixGo l.length l

/-- The final segment after splitting on `[:|/.]` and keeping
`parts[parts.length - 1]`: the longest separator-free suffix. -/
def lastSeg (l : BName) : BName :=
  (l.reverse.takeWhile (fun c => !(isSepCode c))).reverse

/-- Embedding of the dual-format variant's `normalizeBoneName`:
lowercase, strip the `mixamorig` vendor prefix wherever it occurs,
keep the final segment after splitting on `:`, `|`, `/`, `.`. -/
def normalizeBoneName (name : BName) : BName :=
  lastSeg (stripMix (lowerList name))

/-- Alphanumeric ASCII test, the class `[a-zA-Z0-9]`. -/
def isAlnumCode (n : Nat) : Bool :=
  (48 ≤ n && n ≤ 57) || (65 ≤ n && n ≤ 90) || (97 ≤ n && n ≤ 122)

/-- `s.replace(/[^a-zA-Z0-9]/g, '')`: drop every non-alphanumeric character. -/
def cleanName (l : BName) : BName := l.filter isAlnumCode

/-- JavaScript `big.endsWith(small)`: is `small` a suffix of `big`. -/
def isSuffixL (small big : BName) : Bool := isPrefixL small.reverse big.reverse

/-- JavaScript `hay.includes(needle)`: substring containment. -/
def containsL : BName → BName → Bool
  | [], needle => needle.isEmpty
  | c :: rest, needle => isPrefixL needle (c :: rest) || containsL rest needle

/-- A Bone Map: canonical key → concrete bone name, in JavaScript `Map`
iteration (insertion) order. -/
abbrev BoneMap := List (BName × BName)

/-- JavaScript `Map.get`: the value of the first (unique) entry with this key. -/
def mapLookup (m : BoneMap) (k : BName) : Option BName :=
  match m with
  | [] => none
  | e :: rest => if e.1 = k then some e.2 else mapLookup rest k

/-- JavaScript `Map.set`: overwrite the value if the key is present (keeping
its position in iteration order), otherwise append a new entry. -/
def mapSet (m : BoneMap) (k v : BName) : BoneMap :=
  if (mapLookup m k).isSome then
    m.map (fun e => if e.1 = k then (k, v) else e)
  else
    m ++ [(k, v)]

/-- JavaScript truthiness of an optional string: `null` and `""` are falsy. -/
def truthyStr : Option BName → Option BName
  | some v => if v = [] then none else some v
  | none => none

/-- The single scan of `findBoneFuzzy` over the map entries: per entry,
first the stripped-equality test, then the two-sided `endsWith` containment
test; the first entry passing either wins. -/
def fuzzyLoop (m : BoneMap) (cleanSearch : BName) : Option BName :=
  match m with
  | [] => none
  | (k, v) :: rest =>
    let cleanKey := cleanName k
    if cleanKey = cleanSearch then some v
    else if isSuffixL cleanSearch cleanKey || isSuffixL cleanKey cleanSearch then some v
    else fuzzyLoop rest cleanSearch

/-- Embedding of `findBoneFuzzy`: direct lookup first (a falsy hit — an empty
string value — falls through, as in the source's `if (direct)`), then the
combined stripped-equality / containment scan. -/
def findBoneFuzzy (boneMap : BoneMap) (searchName : BName) : Option BName :=
  match truthyStr (mapLookup boneMap searchName) with
  | some v => some v
  | none => fuzzyLoop boneMap (cleanName searchName)

/-- The model's asset formats (`ModelFormat` in `types.ts`). -/
inductive Fmt
  | glb
  | fbx
deriving DecidableEq

/-- A keyframe track: its addressing name `<bone>.<property>` plus an opaque
payload standing for its times/values arrays (the dual-format retargeter
never modifies them, only the name). -/
structure Track where
  name : BName
  payload : Nat
deriving DecidableEq

/-- An animation clip: a name and its ordered tracks. -/
structure Clip where
  name : BName
  tracks : List Track
deriving DecidableEq

/-- Split a track name at its last `.` (codepoint 46) into
`(boneName, property)`, as `lastIndexOf('.')` + `substring` do; a name with
no dot yields an empty bone name and the whole name as property. -/
def splitLastDot (name : BName) : BName × BName :=
  let revProp := name.reverse.takeWhile (fun c => !(c == 46))
  if revProp.length = name.length then ([], name)
  else (name.take (name.length - revProp.length - 1), revProp.reverse)

def strHips : BName := [104, 105, 112, 115]
def strRoot : BName := [114, 111, 111, 116]
def strPosition : BName := [112, 111, 115, 105, 116, 105, 111, 110]

/-- The dual-format variant's root-class vocabulary
`['hips', 'root', 'pelvis', 'torso', 'spine', 'waist']`. -/
def rootBoneKeywords : List BName :=
  [strHips, strRoot,
   [112, 101, 108, 118, 105, 115],
   [116, 111, 114, 115, 111],
   [115, 112, 105, 110, 101],
   [119, 97, 105, 115, 116]]

/-- The dual-format variant's root-class test: some keyword occurs in the
canonical bone name, or (GLB only) the canonical name is exactly `root` or
`hips`. -/
def isRootBone (fmt : Fmt) (simpleBoneName : BName) : Bool :=
  rootBoneKeywords.any (fun k => containsL simpleBoneName k) ||
  (fmt == Fmt.glb && (simpleBoneName == strRoot || simpleBoneName == strHips))

/-- The GLB smart fallback's root lookup
`findBoneFuzzy(modelBones, 'hips') || findBoneFuzzy(modelBones, 'root')`,
with JavaScript `||`/`if` truthiness. -/
def smartRootFind (bones : BoneMap) : Option BName :=
  match truthyStr (findBoneFuzzy bones strHips) with
  | some v => some v
  | none => truthyStr (findBoneFuzzy bones strRoot)

/-- Whether the GLB smart fallback fires for a track: it must be a `position`
track whose canonical bone name contains `hips` or `root`, and the direct
hips/root lookup must produce a truthy bone. -/
def smartFallbackHit (bones : BoneMap) (simpleBoneName property : BName) : Bool :=
  (property == strPosition &&
    (containsL simpleBoneName strHips || containsL simpleBoneName strRoot)) &&
  (smartRootFind bones).isSome

/-- One iteration of the track loop of the dual-format variant's
`processClip`: the (zero or one) tracks the iteration pushes for track `t`.
A (truthy) resolved root-class `position` track is dropped (`continue`) when
stripping is requested, other resolved tracks are renamed to the destination
bone; an unresolved track goes through the GLB smart fallback and otherwise —
in both formats — is pushed through unchanged. -/
def retargetOne (fmt : Fmt) (bones : BoneMap) (strip : Bool) (t : Track) :
    List Track :=
  let bp := splitLastDot t.name
  let simple := normalizeBoneName bp.1
  let property := bp.2
  match truthyStr (findBoneFuzzy bones simple) with
  | some tb =>
    if strip && isRootBone fmt simple && property == strPosition then []
    else [⟨tb ++ [46] ++ property, t.payload⟩]
  | none =>
    if fmt == Fmt.glb then
      if property == strPosition &&
          (containsL simple strHips || containsL simple strRoot) then
        match smartRootFind bones with
        | some rb =>
          if strip then []
          else [⟨rb ++ [46] ++ property, t.payload⟩]
        | none => [t]
      else [t]
    else [t]

/-- The track loop of the dual-format variant's `processClip`: the tracks
pushed by each iteration, in order. -/
def processClipTracks (fmt : Fmt) (bones : BoneMap) (strip : Bool) :
    List Track → List Track
  | [] => []
  | t :: ts => retargetOne fmt bones strip t ++ processClipTracks fmt bones strip ts

/-- The dual-format variant's `processClip`: rename the clip and rewrite its
tracks. -/
def processClip (fmt : Fmt) (bones : BoneMap) (clip : Clip) (newName : BName)
    (strip : Bool) : Clip :=
  ⟨newName, processClipTracks fmt bones strip clip.tracks⟩

/-- The bone-map build of the `animations` memo: traverse the skeleton's bone
names in order, inserting `canonicalize(raw) → raw` with `Map.set` overwrite
semantics; `canonicalize` is `normalizeBoneName` in the dual-format variant and
the `:`-prefix/lowercase rule in the legacy variant, so it is a parameter. -/
def buildBoneMapFrom (canonicalize : BName → BName) (m : BoneMap) :
    List BName → BoneMap
  | [] => m
  | raw :: rest =>
    buildBoneMapFrom canonicalize (mapSet m (canonicalize raw) raw) rest

/-- The bone map of a skeleton whose bone names, in traversal order, are
`names`. -/
def buildBoneMap (canonicalize : BName → BName) (names : List BName) : BoneMap :=
  buildBoneMapFrom canonicalize [] names

/-- The raw name of the last bone in traversal order whose canonical key is
`k` (the reference for the last-wins disambiguation claim). -/
def lastRawFor (canonicalize : BName → BName) (names : List BName) (k : BName) :
    Option BName :=
  match names with
  | [] => none
  | r :: rest =>
    match lastRawFor canonicalize rest k with
    | some v => some v
    | none => if canonicalize r = k then some r else none

/-! ### Locomotion, terrain and scale, over exact rationals -/

/-- The terrain descriptor `stairConfig`. -/
structure StairCfg where
  startZ : ℚ
  slopeEndZ : ℚ
  wallZ : ℚ
  height : ℚ
deriving DecidableEq

/-- `THREE.MathUtils.clamp(v, lo, hi) = Math.max(lo, Math.min(hi, v))`. -/
def clampQ (v lo hi : ℚ) : ℚ := max lo (min hi v)

/-- The height step of the frame loop (`useFrame` step 3): flat platform height
beyond the ramp end, otherwise clamped linear ramp progress times the height. -/
def terrainHeight (cfg : StairCfg) (z : ℚ) : ℚ :=
  if z < cfg.slopeEndZ then cfg.height
  else clampQ ((cfg.startZ - z) / (cfg.startZ - cfg.slopeEndZ)) 0 1 * cfg.height

/-- `const speed = isRunning ? 5.0 : 2.0`. -/
def moveSpeed (running : Bool) : ℚ := if running then 5 else 2

/-- A character position. -/
structure SimPos where
  x : ℚ
  y : ℚ
  z : ℚ
deriving DecidableEq

/-- The observable outcome of one frame: the resulting position, the `onStop`
payload if the stop event fired, and whether `setCharState(IDLE)` forced the
state to Idle. -/
structure TickOut where
  pos : SimPos
  stoppedAt : Option SimPos
  forcedIdle : Bool
deriving DecidableEq

/-- One frame of the `useFrame` loop (celebration override, movement logic and
height calculation; camera follow omitted — no claim concerns it).

`dist` is the horizontal Euclidean distance `flatCurrent.distanceTo(flatTarget)`
computed by the source via `Math.sqrt`; since that square root is irrational in
general it is supplied as an argument, and theorems about the movement branch
constrain it by its defining property
`dist ≥ 0 ∧ dist * dist = (tx − x)² + (tz − z)²`. -/
def fullTick (cfg : StairCfg) (celebrating : Bool) (target : Option (ℚ × ℚ))
    (running : Bool) (dt dist : ℚ) (p : SimPos) : TickOut :=
  if celebrating then
    -- position.lerp((0, height, centerZ), min(0.05, delta * 0.5)); no height step
    let a := min (1 / 20) (dt * (1 / 2))
    let centerZ := (cfg.slopeEndZ + cfg.wallZ) / 2
    ⟨⟨p.x + (0 - p.x) * a, p.y + (cfg.height - p.y) * a, p.z + (centerZ - p.z) * a⟩,
      none, false⟩
  else
    let afterMove : SimPos × Option SimPos × Bool :=
      match target with
      | none => (p, none, false)
      | some (tx, tz) =>
        if dist < 1 / 5 then
          (p, some p, true)
        else
          let m := min (moveSpeed running * dt) (1 / 2)
          (⟨p.x + (tx - p.x) / dist * m, p.y, p.z + (tz - p.z) / dist * m⟩,
            none, false)
    ⟨⟨afterMove.1.x, terrainHeight cfg afterMove.1.z, afterMove.1.z⟩,
      afterMove.2.1, afterMove.2.2⟩

/-- The scale computation of the model-normalizing layout effect: if the world
bounding-box height exceeds `0.001`, the scale becomes `1.8 / height`,
otherwise the previous scale value is kept. -/
def computeModelScale (sizeY prevScale : ℚ) : ℚ :=
  if sizeY > 1 / 1000 then (9 / 5) / sizeY else prevScale

/-! ### Animation state machine -/

/-- `CharState` from `types.ts`. -/
inductive CharState
  | IDLE
  | WALK
  | RUN
  | DANCE
deriving DecidableEq

/-- The state effect of `SmartCharacter`: celebration forces Dance; otherwise a
target selects Run/Walk by the running flag; otherwise the state falls back to
Idle unless it already is Dance (which then persists). -/
def nextCharState (targetPos : Option (ℚ × ℚ)) (running celebrating : Bool)
    (prev : CharState) : CharState :=
  if celebrating then CharState.DANCE
  else
    match targetPos with
    | some _ => if running then CharState.RUN else CharState.WALK
    | none => if prev ≠ CharState.DANCE then CharState.IDLE else prev

/-- The state transition exactly as the claim words it, for comparison:
Dance whenever celebrating; otherwise Run when a target is set and running,
Walk when a target is set and not running; otherwise the previous state when
that state is Dance, and Idle in every other case. -/
def nextCharStateSpec (targetPos : Option (ℚ × ℚ)) (running celebrating : Bool)
    (prev : CharState) : CharState :=
  if celebrating then CharState.DANCE
  else if targetPos.isSome && running then CharState.RUN
  else if targetPos.isSome && !running then CharState.WALK
  else if prev = CharState.DANCE then prev
  else CharState.IDLE

/-- The three-phase fuzzy matcher exactly as the claim words it, for
comparison: (1) exact lookup; (2) over all entries, the first whose stripped
key equals the stripped search key; (3) only then, the first entry where one
stripped string is a suffix of the other. -/
def findBoneFuzzyPhased (boneMap : BoneMap) (searchName : BName) : Option BName :=
  match mapLookup boneMap searchName with
  | some v => some v
  | none =>
    let cs := cleanName searchName
    match (boneMap.find? (fun e => cleanName e.1 == cs)).map Prod.snd with
    | some v => some v
    | none =>
      (boneMap.find? (fun e =>
        isSuffixL cs (cleanName e.1) || isSuffixL (cleanName e.1) cs)).map Prod.snd

/-! ### Shared helper lemmas -/

/-- The track loop processes tracks independently, so it maps over
concatenation. -/
theorem processClipTracks_append (fmt : Fmt) (bones : BoneMap) (strip : Bool)
    (l1 l2 : List Track) :
    processClipTracks fmt bones strip (l1 ++ l2) =
      processClipTracks fmt bones strip l1 ++ processClipTracks fmt bones strip l2 := by
  induction l1 with
  | nil => rfl
  | cons t ts ih =>
    simp only [List.cons_append, processClipTracks, List.append_eq, ih,
      List.append_assoc]

/-- A shared demo terrain descriptor for concrete instances:
`{startZ: 8, slopeEndZ: -4, wallZ: -12, height: 5}`. -/
def cfgDemo : StairCfg := ⟨8, -4, -12, 5⟩

/-! ### C1 — root-translation stripping drops the track -/

/-- C1: for every destination format, bone map and surrounding tracks, a track
whose source bone resolves (truthily) to a destination bone, whose canonical
bone name is root-class, and whose property is `position` is dropped entirely
from the retargeted clip when root-translation stripping is requested. -/
theorem rootPositionTrackDropped (fmt : Fmt) (bones : BoneMap)
    (cn nm : BName) (pre post : List Track) (t : Track) (tb : BName)
    (hres : truthyStr (findBoneFuzzy bones (normalizeBoneName (splitLastDot t.name).1)) = some tb)
    (hroot : isRootBone fmt (normalizeBoneName (splitLastDot t.name).1) = true)
    (hprop : (splitLastDot t.name).2 = strPosition) :
    processClip fmt bones ⟨cn, pre ++ t :: post⟩ nm true =
      processClip fmt bones ⟨cn, pre ++ post⟩ nm true := by
  have hone : retargetOne fmt bones true t = [] := by
    simp only [retargetOne]
    rw [hres, hprop, hroot]
    simp
  simp only [processClip, Clip.mk.injEq, true_and]
  have h1 : pre ++ t :: post = pre ++ [t] ++ post := by simp
  rw [h1, processClipTracks_append, processClipTracks_append,
    processClipTracks_append]
  simp [processClipTracks, hone]

/-- C1 witness: the claim's own scenario — a `hips.position` track with bone
map `hips → Character_Hips` and stripping enabled is dropped, so the
retargeted clip contains no `Character_Hips.position` track. -/
theorem rootPositionTrackDropped_witness :
    processClip Fmt.fbx [(strHips, strToCodes "Character_Hips")]
        ⟨[], [] ++ ⟨strToCodes "hips.position", 0⟩ :: []⟩ [] true =
      processClip Fmt.fbx [(strHips, strToCodes "Character_Hips")] ⟨[], [] ++ []⟩ [] true ∧
    (processClip Fmt.fbx [(strHips, strToCodes "Character_Hips")]
        ⟨[], [⟨strToCodes "hips.position", 0⟩]⟩ [] true).tracks = [] :=
  ⟨rootPositionTrackDropped Fmt.fbx [(strHips, strToCodes "Character_Hips")]
      [] [] [] [] ⟨strToCodes "hips.position", 0⟩ (strToCodes "Character_Hips")
      (by decide) (by decide) (by decide),
    by decide⟩

/-! ### C7 — unresolved tracks -/

/-- C7 counterexample: in the non-GLB (FBX) destination format, a track whose
source bone cannot be resolved is not dropped: it appears unchanged in the
retargeted clip, contradicting the claim that outside the pass-through format
no unresolved track appears. -/
theorem unresolvedTrackKept_cex :
    findBoneFuzzy []
        (normalizeBoneName (splitLastDot (strToCodes "foo.rotation")).1) = none ∧
    processClipTracks Fmt.fbx [] true [⟨strToCodes "foo.rotation", 7⟩] =
      [⟨strToCodes "foo.rotation", 7⟩] := by
  decide

/-- C7 (amended): a track whose source bone cannot be resolved is emitted
unchanged in the retargeted clip in both destination formats — in FBX directly,
and in GLB whenever the hips/root smart fallback does not fire — and
retargeting a miss is total (never an error). -/
theorem unresolvedPassThrough (fmt : Fmt) (bones : BoneMap) (strip : Bool)
    (pre post : List Track) (t : Track)
    (hres : truthyStr (findBoneFuzzy bones (normalizeBoneName (splitLastDot t.name).1)) = none)
    (hnofb : fmt = Fmt.fbx ∨
      smartFallbackHit bones (normalizeBoneName (splitLastDot t.name).1)
        (splitLastDot t.name).2 = false) :
    processClipTracks fmt bones strip (pre ++ t :: post) =
      processClipTracks fmt bones strip pre ++
        t :: processClipTracks fmt bones strip post := by
  have hone : retargetOne fmt bones strip t = [t] := by
    simp only [retargetOne]
    rw [hres]
    rcases hnofb with hfbx | hmiss
    · subst hfbx; simp
    · cases fmt with
      | fbx => simp
      | glb =>
        by_cases hc : ((splitLastDot t.name).2 == strPosition &&
            (containsL (normalizeBoneName (splitLastDot t.name).1) strHips ||
             containsL (normalizeBoneName (splitLastDot t.name).1) strRoot)) = true
        · have hsf : smartRootFind bones = none := by
            unfold smartFallbackHit at hmiss
            rw [hc] at hmiss
            simpa using hmiss
          simp [hc, hsf]
        · simp only [Bool.not_eq_true] at hc
          simp [hc]
  have h1 : pre ++ t :: post = pre ++ [t] ++ post := by simp
  rw [h1, processClipTracks_append, processClipTracks_append]
  simp [processClipTracks, hone]

/-- C7 witness: a concrete unresolved FBX track passes through unchanged. -/
theorem unresolvedPassThrough_witness :
    processClipTracks Fmt.fbx [] true ([] ++ ⟨strToCodes "foo.rotation", 7⟩ :: []) =
      processClipTracks Fmt.fbx [] true [] ++
        ⟨strToCodes "foo.rotation", 7⟩ :: processClipTracks Fmt.fbx [] true [] :=
  unresolvedPassThrough Fmt.fbx [] true [] [] ⟨strToCodes "foo.rotation", 7⟩
    (by decide) (Or.inl rfl)

/-! ### C2 — fuzzy matcher phase structure -/

/-- A map exhibiting C2's precedence failure: the first entry matches only by
containment, the second by stripped equality. -/
def mapPrecedenceDemo : BoneMap :=
  [(strToCodes "xhips", strToCodes "A"), (strToCodes "hip.s", strToCodes "B")]

/-- C2 counterexample: on the map `{xhips → A, hip.s → B}` with search key
`hips`, the source's matcher returns `A` (containment on the earlier entry),
while the claim's three-phase semantics — all stripped-equality comparisons
before any containment — returns `B`: a stripped-equality match on a later
entry does not take precedence in the code. -/
theorem fuzzyPhasedPrecedence_cex :
    findBoneFuzzy mapPrecedenceDemo (strToCodes "hips") = some (strToCodes "A") ∧
    findBoneFuzzyPhased mapPrecedenceDemo (strToCodes "hips") = some (strToCodes "B") ∧
    strToCodes "A" ≠ strToCodes "B" := by
  decide

/-- The single scan of the matcher is `List.find?` with the per-entry
equality-or-containment test. -/
theorem fuzzyLoop_eq_find (m : BoneMap) (cs : BName) :
    fuzzyLoop m cs =
      (m.find? (fun e => (cleanName e.1 == cs) ||
        isSuffixL cs (cleanName e.1) || isSuffixL (cleanName e.1) cs)).map Prod.snd := by
  induction m with
  | nil => rfl
  | cons e rest ih =>
    rcases e with ⟨k, v⟩
    by_cases h1 : cleanName k = cs
    · simp [fuzzyLoop, List.find?, h1]
    · have h1b : (cleanName k == cs) = false := by simpa using h1
      cases h2 : isSuffixL cs (cleanName k) with
      | true => simp [fuzzyLoop, List.find?, h1, h1b, h2]
      | false =>
        cases h3 : isSuffixL (cleanName k) cs with
        | true => simp [fuzzyLoop, List.find?, h1, h1b, h2, h3]
        | false => simp [fuzzyLoop, List.find?, h1, h1b, h2, h3, ih]

/-- C2 (amended): the matcher resolves in two stages — an exact (truthy) key
lookup, then one single left-to-right scan of the map whose per-entry test is
"stripped keys equal, or one stripped string is a suffix of the other"; the
first entry passing either test wins, so an earlier containment-only entry
beats a later stripped-equality entry. The claim's own example still holds:
map `{mixamorighips → Hips}` with search key `hips` resolves to `Hips`. -/
theorem fuzzyMatcherSinglePass :
    (∀ (m : BoneMap) (k : BName),
      findBoneFuzzy m k =
        match truthyStr (mapLookup m k) with
        | some v => some v
        | none =>
          (m.find? (fun e => (cleanName e.1 == cleanName k) ||
            isSuffixL (cleanName k) (cleanName e.1) ||
            isSuffixL (cleanName e.1) (cleanName k))).map Prod.snd) ∧
    findBoneFuzzy [(strToCodes "mixamorighips", strToCodes "Hips")]
      (strToCodes "hips") = some (strToCodes "Hips") := by
  constructor
  · intro m k
    unfold findBoneFuzzy
    cases truthyStr (mapLookup m k) with
    | some v => rfl
    | none => simpa using fuzzyLoop_eq_find m (cleanName k)
  · decide

/-! ### C3 — animation state machine -/

/-- C3: the next animation state agrees with the claimed pure function of
`(targetPoint, isRunning, isCelebrating, previous state)` — Dance whenever
celebrating, else Run/Walk by the running flag while a target is set, else the
previous state when it is Dance and Idle otherwise; in particular Dance is
sticky with no target, not running, not celebrating. -/
theorem charStateTransition :
    (∀ (tp : Option (ℚ × ℚ)) (running celebrating : Bool) (prev : CharState),
      nextCharState tp running celebrating prev =
        nextCharStateSpec tp running celebrating prev) ∧
    nextCharState none false false CharState.DANCE = CharState.DANCE := by
  constructor
  · intro tp running celebrating prev
    cases tp <;> cases running <;> cases celebrating <;> cases prev <;> rfl
  · rfl

/-! ### C9 — model normalizer scale -/

/-- C9: the model normalizer's scale is `1.8 / boundingBoxHeight` whenever the
bounding-box height exceeds the epsilon `0.001` (so height `3.6` yields scale
`0.5`), and keeps the previous scale when the height is at or below the
epsilon. -/
theorem modelScaleRule (h prev : ℚ) :
    (1 / 1000 < h → computeModelScale h prev = (9 / 5) / h) ∧
    (h ≤ 1 / 1000 → computeModelScale h prev = prev) ∧
    computeModelScale (18 / 5) prev = 1 / 2 := by
  refine ⟨fun hgt => ?_, fun hle => ?_, ?_⟩
  · rw [computeModelScale, if_pos hgt]
  · rw [computeModelScale, if_neg (not_lt.mpr hle)]
  · rw [computeModelScale, if_pos (by norm_num)]
    norm_num

/-- C9 witness: a bounding-box height of `3.6` yields scale `0.5`, and a
degenerate height of `0.0005` keeps the previous scale `0.01`. -/
theorem modelScaleRule_witness :
    computeModelScale (18 / 5) (1 / 100) = 1 / 2 ∧
    computeModelScale (1 / 2000) (1 / 100) = 1 / 100 :=
  ⟨(modelScaleRule (18 / 5) (1 / 100)).2.2,
    (modelScaleRule (1 / 2000) (1 / 100)).2.1 (by norm_num)⟩

/-! ### C5 — vertical position derived from terrain -/

/-- C5 counterexample: on a celebrating tick the §3 invariant fails — from
position `(0, 0, 8)` on the demo terrain with `dt = 1`, the tick blends the
position toward the platform and ends with `y = 1/4` while the terrain height
at the resulting `z = 36/5` is `1/3`. -/
theorem heightInvariantCelebration_cex :
    (fullTick cfgDemo true none false 1 0 ⟨0, 0, 8⟩).pos.y ≠
      terrainHeight cfgDemo (fullTick cfgDemo true none false 1 0 ⟨0, 0, 8⟩).pos.z := by
  norm_num [fullTick, terrainHeight, clampQ, cfgDemo, min_def, max_def]

/-- C5 (amended): at the end of every simulation tick executed with
`isCelebrating = false` — whatever the target, running flag, elapsed time and
position — `position.y` equals the terrain height function of `position.z`;
during celebrating ticks the position is instead blended toward the platform
and the derivation can fail. -/
theorem heightDerivedWhenNotCelebrating (cfg : StairCfg)
    (target : Option (ℚ × ℚ)) (running : Bool) (dt dist : ℚ) (p : SimPos) :
    (fullTick cfg false target running dt dist p).pos.y =
      terrainHeight cfg (fullTick cfg false target running dt dist p).pos.z := rfl

/-! ### C6 — terrain monotonicity -/

/-- C6: for every terrain descriptor with `rampStartZ > rampEndZ` and
`platformHeight ≥ 0`, the terrain height is non-decreasing as `z` decreases
within `[rampEndZ, rampStartZ]`, and constantly the platform height for all
`z ≤ rampEndZ`. -/
theorem terrainMonotone (cfg : StairCfg)
    (hlen : cfg.slopeEndZ < cfg.startZ) (hh : 0 ≤ cfg.height) :
    (∀ z1 z2 : ℚ, cfg.slopeEndZ ≤ z1 → z1 ≤ z2 → z2 ≤ cfg.startZ →
      terrainHeight cfg z2 ≤ terrainHeight cfg z1) ∧
    (∀ z : ℚ, z ≤ cfg.slopeEndZ → terrainHeight cfg z = cfg.height) := by
  have hpos : (0 : ℚ) < cfg.startZ - cfg.slopeEndZ := by linarith
  constructor
  · intro z1 z2 hz1 hz12 hz2
    rw [terrainHeight, terrainHeight, if_neg (not_lt.mpr (le_trans hz1 hz12)),
      if_neg (not_lt.mpr hz1)]
    apply mul_le_mul_of_nonneg_right _ hh
    unfold clampQ
    have hdiv : (cfg.startZ - z2) / (cfg.startZ - cfg.slopeEndZ) ≤
        (cfg.startZ - z1) / (cfg.startZ - cfg.slopeEndZ) := by
      gcongr
    exact max_le_max le_rfl (min_le_min le_rfl hdiv)
  · intro z hz
    by_cases hlt : z < cfg.slopeEndZ
    · rw [terrainHeight, if_pos hlt]
    · have hzeq : z = cfg.slopeEndZ := le_antisymm hz (not_lt.mp hlt)
      rw [terrainHeight, if_neg (not_lt.mpr (le_of_eq hzeq.symm)), hzeq]
      rw [div_self (ne_of_gt hpos)]
      unfold clampQ
      simp

/-- C6 witness: on the demo terrain, the height at `z = 4` is at most the
height at `z = 0`, and at `z = -6` (beyond the ramp end) it equals the
platform height. -/
theorem terrainMonotone_witness :
    terrainHeight cfgDemo 4 ≤ terrainHeight cfgDemo 0 ∧
    terrainHeight cfgDemo (-6) = 5 :=
  ⟨(terrainMonotone cfgDemo (by norm_num [cfgDemo]) (by norm_num [cfgDemo])).1
      0 4 (by norm_num [cfgDemo]) (by norm_num) (by norm_num [cfgDemo]),
    (terrainMonotone cfgDemo (by norm_num [cfgDemo]) (by norm_num [cfgDemo])).2
      (-6) (by norm_num [cfgDemo])⟩

/-! ### C4 — movement tick -/

/-- C4: on a tick with a target set and not celebrating, writing `dist` for the
horizontal distance to the target: when `dist < 0.2` the stop event fires with
the current position, the state is forced to Idle and the horizontal position
is unchanged; otherwise no stop fires and the position advances horizontally
toward the target (a nonnegative multiple of the to-target vector) by exactly
`min(speed · dt, 0.5)`, with `speed(Run) = 5 > 2 = speed(Walk)`. -/
theorem movementTickBehavior (cfg : StairCfg) (tx tz : ℚ) (running : Bool)
    (dt dist : ℚ) (p : SimPos)
    (hd0 : 0 ≤ dist)
    (hd : dist * dist = (tx - p.x) * (tx - p.x) + (tz - p.z) * (tz - p.z))
    (hdt : 0 ≤ dt) :
    (dist < 1 / 5 →
      fullTick cfg false (some (tx, tz)) running dt dist p =
        ⟨⟨p.x, terrainHeight cfg p.z, p.z⟩, some p, true⟩) ∧
    (1 / 5 ≤ dist →
      (fullTick cfg false (some (tx, tz)) running dt dist p).stoppedAt = none ∧
      (fullTick cfg false (some (tx, tz)) running dt dist p).forcedIdle = false ∧
      (∃ c : ℚ, 0 ≤ c ∧
        (fullTick cfg false (some (tx, tz)) running dt dist p).pos.x - p.x =
          c * (tx - p.x) ∧
        (fullTick cfg false (some (tx, tz)) running dt dist p).pos.z - p.z =
          c * (tz - p.z)) ∧
      ((fullTick cfg false (some (tx, tz)) running dt dist p).pos.x - p.x) *
          ((fullTick cfg false (some (tx, tz)) running dt dist p).pos.x - p.x) +
        ((fullTick cfg false (some (tx, tz)) running dt dist p).pos.z - p.z) *
          ((fullTick cfg false (some (tx, tz)) running dt dist p).pos.z - p.z) =
        min (moveSpeed running * dt) (1 / 2) * min (moveSpeed running * dt) (1 / 2)) ∧
    moveSpeed true > moveSpeed false := by
  refine ⟨fun hstop => ?_, fun hgo => ?_, by norm_num [moveSpeed]⟩
  · simp only [fullTick, if_pos hstop]
    rfl
  · have hlt : ¬dist < 1 / 5 := not_lt.mpr hgo
    have hdpos : (0 : ℚ) < dist := lt_of_lt_of_le (by norm_num) hgo
    have hdne : dist ≠ 0 := ne_of_gt hdpos
    have hm0 : 0 ≤ min (moveSpeed running * dt) (1 / 2) := by
      apply le_min _ (by norm_num)
      have : (0 : ℚ) ≤ moveSpeed running := by
        cases running <;> norm_num [moveSpeed]
      positivity
    simp only [fullTick, Bool.false_eq_true, if_false, if_neg hlt]
    refine ⟨trivial, trivial, ⟨min (moveSpeed running * dt) (1 / 2) / dist,
      div_nonneg hm0 hd0, by ring, by ring⟩, ?_⟩
    have hdist2 : dist * dist ≠ 0 := mul_ne_zero hdne hdne
    calc (p.x + (tx - p.x) / dist * min (moveSpeed running * dt) (1 / 2) - p.x) *
          (p.x + (tx - p.x) / dist * min (moveSpeed running * dt) (1 / 2) - p.x) +
        (p.z + (tz - p.z) / dist * min (moveSpeed running * dt) (1 / 2) - p.z) *
          (p.z + (tz - p.z) / dist * min (moveSpeed running * dt) (1 / 2) - p.z)
        = ((tx - p.x) * (tx - p.x) + (tz - p.z) * (tz - p.z)) *
            (min (moveSpeed running * dt) (1 / 2) * min (moveSpeed running * dt) (1 / 2)) /
            (dist * dist) := by
          ring
      _ = (dist * dist) *
            (min (moveSpeed running * dt) (1 / 2) * min (moveSpeed running * dt) (1 / 2)) /
            (dist * dist) := by rw [hd]
      _ = min (moveSpeed running * dt) (1 / 2) * min (moveSpeed running * dt) (1 / 2) := by
          rw [mul_comm, mul_div_assoc, div_self hdist2, mul_one]

/-- C4 witness: from the origin toward target `(3, 4)` (distance `5`) while
running with `dt = 1`, the tick does not stop, and displaces the position by
the capped step. -/
theorem movementTickBehavior_witness :
    (fullTick cfgDemo false (some (3, 4)) true 1 5 ⟨0, 0, 0⟩).stoppedAt = none ∧
    fullTick cfgDemo false (some (0, 0)) false 1 0 ⟨0, 0, 0⟩ =
      ⟨⟨0, terrainHeight cfgDemo 0, 0⟩, some ⟨0, 0, 0⟩, true⟩ :=
  ⟨((movementTickBehavior cfgDemo 3 4 true 1 5 ⟨0, 0, 0⟩ (by norm_num)
      (by norm_num) (by norm_num)).2.1 (by norm_num)).1,
    (movementTickBehavior cfgDemo 0 0 false 1 0 ⟨0, 0, 0⟩ (le_refl 0)
      (by norm_num) (by norm_num)).1 (by norm_num)⟩

/-! ### C8 — canonicalization idempotence -/

/-- ASCII lowercasing is idempotent codepoint by codepoint. -/
theorem lowerCode_idem (n : Nat) : lowerCode (lowerCode n) = lowerCode n := by
  unfold lowerCode
  by_cases h : 65 ≤ n ∧ n ≤ 90
  · rw [if_pos h, if_neg (by omega)]
  · rw [if_neg h, if_neg h]

/-- Consuming an optional underscore only ever removes a leading character. -/
theorem mem_dropUnd {c : Nat} : ∀ {l : BName}, c ∈ dropUnd l → c ∈ l := by
  intro l h
  cases l with
  | nil => exact h
  | cons d rest =>
    simp only [dropUnd] at h
    by_cases hd : d = 95
    · rw [if_pos hd] at h
      exact List.mem_cons_of_mem _ h
    · rwa [if_neg hd] at h

/-- The optional-separator consumption only ever removes leading characters. -/
theorem mem_dropMixSep {c : Nat} : ∀ {l : BName}, c ∈ dropMixSep l → c ∈ l := by
  intro l h
  cases l with
  | nil => exact h
  | cons a rest =>
    simp only [dropMixSep] at h
    by_cases ha : a = 58
    · rw [if_pos ha] at h
      exact List.mem_cons_of_mem _ (mem_dropUnd h)
    · rw [if_neg ha] at h
      exact mem_dropUnd h

/-- The vendor-prefix scan only ever removes characters. -/
theorem mem_stripMixGo {c : Nat} :
    ∀ (fuel : Nat) (l : BName), c ∈ stripMixGo fuel l → c ∈ l := by
  intro fuel
  induction fuel with
  | zero => intro l h; exact h
  | succ f ih =>
    intro l h
    cases l with
    | nil => exact h
    | cons a rest =>
      simp only [stripMixGo] at h
      by_cases hp : isPrefixL mixPrefix (a :: rest) = true
      · rw [if_pos hp] at h
        exact List.mem_cons_of_mem _
          (List.mem_of_mem_drop (mem_dropMixSep (ih _ h)))
      · rw [if_neg hp] at h
        rcases List.mem_cons.mp h with rfl | h2
        · exact List.mem_cons_self _ _
        · exact List.mem_cons_of_mem _ (ih _ h2)

/-- Vendor-prefix stripping only ever removes characters. -/
theorem mem_stripMix {c : Nat} {l : BName} (h : c ∈ stripMix l) : c ∈ l :=
  mem_stripMixGo l.length l h

/-- Every character of the final segment is a non-separator character of the
input. -/
theorem mem_lastSeg {c : Nat} {l : BName} (h : c ∈ lastSeg l) :
    c ∈ l ∧ isSepCode c = false := by
  unfold lastSeg at h
  rw [List.mem_reverse] at h
  have hmem : c ∈ l.reverse := (List.takeWhile_prefix _).subset h
  have hpred : (fun c => !(isSepCode c)) c = true :=
    List.mem_takeWhile_imp (p := fun c => !(isSepCode c)) h
  exact ⟨List.mem_reverse.mp hmem, by simpa using hpred⟩

/-- On a separator-free string the final segment is the whole string. -/
theorem lastSeg_of_noSep {l : BName} (h : ∀ c ∈ l, isSepCode c = false) :
    lastSeg l = l := by
  unfold lastSeg
  rw [List.takeWhile_eq_self_iff.mpr, List.reverse_reverse]
  intro c hc
  simp [h c (List.mem_reverse.mp hc)]

/-- C8 counterexample: canonicalization is not idempotent for every string —
`mixamixamorigmorig` normalizes to `mixamorig` (removing the inner overlapped
occurrence re-creates the vendor prefix), which normalizes to the empty
string. -/
theorem normalizeIdem_cex :
    normalizeBoneName (normalizeBoneName (strToCodes "mixamixamorigmorig")) ≠
      normalizeBoneName (strToCodes "mixamixamorigmorig") ∧
    normalizeBoneName (strToCodes "mixamixamorigmorig") = strToCodes "mixamorig" := by
  decide

/-- C8 (amended): canonicalization is idempotent on every string whose
canonical form is free of the vendor prefix — whenever stripping the vendor
prefix from `normalize(x)` is a no-op (which a fresh occurrence of
`mixamorig`, re-created by overlapped removal, can defeat),
`normalize(normalize(x)) = normalize(x)`. -/
theorem normalizeIdemOnStable (x : BName)
    (hstable : stripMix (normalizeBoneName x) = normalizeBoneName x) :
    normalizeBoneName (normalizeBoneName x) = normalizeBoneName x := by
  have hy_mem : ∀ c ∈ normalizeBoneName x, c ∈ lowerList x ∧ isSepCode c = false := by
    intro c hc
    have h2 := mem_lastSeg hc
    exact ⟨mem_stripMix h2.1, h2.2⟩
  have hlower : lowerList (normalizeBoneName x) = normalizeBoneName x := by
    unfold lowerList
    rw [List.map_congr_left (g := id) ?_, List.map_id]
    intro c hc
    obtain ⟨d, _, rfl⟩ := List.mem_map.mp (hy_mem c hc).1
    exact lowerCode_idem d
  have hseg : lastSeg (normalizeBoneName x) = normalizeBoneName x :=
    lastSeg_of_noSep (fun c hc => (hy_mem c hc).2)
  calc normalizeBoneName (normalizeBoneName x)
      = lastSeg (stripMix (lowerList (normalizeBoneName x))) := rfl
    _ = normalizeBoneName x := by rw [hlower, hstable, hseg]

/-- C8 witness: `Hips` canonicalizes to `hips`, whose canonical form is stable
under a second canonicalization. -/
theorem normalizeIdemOnStable_witness :
    normalizeBoneName (normalizeBoneName (strToCodes "Hips")) =
      normalizeBoneName (strToCodes "Hips") :=
  normalizeIdemOnStable (strToCodes "Hips") (by decide)

/-! ### C10 — bone map build is last-wins -/

/-- Lookup after the overwrite path of `Map.set`. -/
theorem mapLookup_map_update (m : BoneMap) (k v k' : BName) :
    mapLookup (m.map (fun e => if e.1 = k then (k, v) else e)) k' =
      if k' = k then (mapLookup m k).map (fun _ => v) else mapLookup m k' := by
  induction m with
  | nil => by_cases h : k' = k <;> simp [mapLookup, h]
  | cons e rest ih =>
    simp only [List.map_cons]
    by_cases he : e.1 = k
    · by_cases hkk : k' = k
      · subst hkk
        simp [mapLookup, he]
      · have hne : e.1 ≠ k' := by rw [he]; exact fun hh => hkk hh.symm
        have hkk2 : ¬(k = k') := fun hh => hkk hh.symm
        simp [mapLookup, he, hne, hkk, hkk2, ih]
    · by_cases hek : e.1 = k'
      · have hkk : ¬(k' = k) := fun hh => he (hek.trans hh)
        simp [mapLookup, he, hek, hkk]
      · simp [mapLookup, he, hek, ih]

/-- Lookup after the append path of `Map.set` (key not yet present). -/
theorem mapLookup_append_single (m : BoneMap) (k v k' : BName)
    (hnone : mapLookup m k = none) :
    mapLookup (m ++ [(k, v)]) k' = if k' = k then some v else mapLookup m k' := by
  induction m with
  | nil =>
    by_cases h : k' = k
    · simp [mapLookup, h]
    · have h2 : ¬(k = k') := fun hh => h hh.symm
      simp [mapLookup, h, h2]
  | cons e rest ih =>
    have he : e.1 ≠ k := by
      intro hh
      simp [mapLookup, hh] at hnone
    have hrest : mapLookup rest k = none := by
      simpa [mapLookup, he] using hnone
    by_cases hek : e.1 = k'
    · simp [mapLookup, hek, show ¬(k' = k) from fun hh => he (hek.trans hh)]
    · simp [mapLookup, hek, ih hrest]

/-- JavaScript `Map.set` then `Map.get`: the set key now maps to the new
value, every other key is untouched. -/
theorem mapLookup_mapSet (m : BoneMap) (k v k' : BName) :
    mapLookup (mapSet m k v) k' = if k' = k then some v else mapLookup m k' := by
  unfold mapSet
  cases hm : mapLookup m k with
  | some w =>
    rw [if_pos (by simp [hm]), mapLookup_map_update]
    by_cases h : k' = k <;> simp [h, hm]
  | none =>
    rw [if_neg (by simp [hm])]
    exact mapLookup_append_single m k v k' hm

/-- Looking a key up in a partially built bone map: the last later insertion
for that key wins, and otherwise the accumulator decides. -/
theorem buildBoneMapFrom_lookup (f : BName → BName) (names : List BName) :
    ∀ (m : BoneMap) (k : BName),
      mapLookup (buildBoneMapFrom f m names) k =
        match lastRawFor f names k with
        | some v => some v
        | none => mapLookup m k := by
  induction names with
  | nil => intro m k; rfl
  | cons r rest ih =>
    intro m k
    simp only [buildBoneMapFrom, lastRawFor]
    rw [ih]
    cases lastRawFor f rest k with
    | some v => rfl
    | none =>
      simp only []
      rw [mapLookup_mapSet]
      by_cases h : f r = k
      · simp [h]
      · have h2 : ¬(k = f r) := fun hh => h hh.symm
        simp [h, h2]

/-- C10: the bone map built from a skeleton traversal resolves every canonical
key to the raw name of the last bone in traversal order with that canonical
key — each `Map.set` overwrites earlier entries — for any canonicalizer (the
dual-format variant's `normalizeBoneName` as well as the legacy rule), making
the map a deterministic function of the bone names and their traversal
order. -/
theorem boneMapLastWins (f : BName → BName) (names : List BName) (k : BName) :
    mapLookup (buildBoneMap f names) k = lastRawFor f names k := by
  rw [buildBoneMap, buildBoneMapFrom_lookup]
  cases lastRawFor f names k <;> rfl

end RedCarpet
